import Mathlib

/-!
Shallow embedding of the replicated-log manager of `go-raft` (`log.go`).

Commands are opaque in the source (`Command` interface); we model a command
payload as a `Nat`.  The apply callback `ApplyFunc : Command -> (interface, error)`
is modelled as a function `Nat -> Nat × Option Nat` (return value, error code) and
is passed as an explicit parameter to the operations that invoke it.  Entry
encoding to the log file may fail (I/O); we model the encoder by a predicate
`encodeOk : LogEntry -> Bool` plus the file content as the list of entries whose
encoded bytes were appended (`fileData`).  `fileOpen` models `l.file != nil`.

Go slice accesses that can panic (index out of range, including `uint64`
underflow producing a huge index) are modelled explicitly: lookups go through
`List.getElem?` / `setSlot` and a `none` outcome is mapped to a distinguished
`panicOOB` value, never silently clamped.
-/

namespace Raft

/-- One replicated log entry: `Index`, `Term` and the opaque command payload. -/
structure LogEntry where
  Index : Nat
  Term : Nat
  Command : Nat
deriving Repr, DecidableEq

/-- The result of applying a log entry (`logResult`): return value and error. -/
structure LogResult where
  returnValue : Nat
  err : Option Nat
deriving Repr, DecidableEq

/-- The `Log` aggregate.  `entries` and `results` are the in-memory window and
its parallel result slots, `commitIndex` / `startIndex` / `startTerm` as in the
source; `fileOpen` models `l.file != nil` and `fileData` the entries whose
encoded bytes are in the append-only file. -/
structure Log where
  entries : List LogEntry
  results : List (Option LogResult)
  commitIndex : Nat
  startIndex : Nat
  startTerm : Nat
  fileOpen : Bool
  fileData : List LogEntry
deriving Repr, DecidableEq

/-- Errors and runtime panics the operations can produce.  The Go code returns
formatted error values; we use a closed error kind set.  `panicOOB` stands for
a Go runtime panic from a slice index out of range (including the huge index
produced by `uint64` subtraction underflow). -/
inductive LogError where
  | notOpen
  | commitOutOfRange
  | alreadyCommitted
  | indexNoExist
  | termMismatch
  | earlierTerm
  | earlierIndex
  | encodeFail
  | panicOOB
deriving Repr, DecidableEq

/-- Outcome of `getEntry`: Go returns `nil` (not found) or the entry, or the
access `l.entries[index-1]` panics when that offset is out of range. -/
inductive EntryLookup where
  | notFound
  | found (entry : LogEntry)
  | panicOOB
deriving Repr, DecidableEq

/-- Go `newLog()`: fresh log, nothing open. -/
def newLog : Log :=
  { entries := [], results := [], commitIndex := 0, startIndex := 0,
    startTerm := 0, fileOpen := false, fileData := [] }

/-- Go `CommitIndex()`: the last committed index. -/
def CommitIndex (l : Log) : Nat :=
  l.commitIndex

/-- Go `currentIndex()`: index of the last in-memory entry, or `startIndex` if
there are none. -/
def currentIndex (l : Log) : Nat :=
  match l.entries.getLast? with
  | none => l.startIndex
  | some e => e.Index

/-- Go `internalCurrentIndex()`: same as `currentIndex` (the lock is irrelevant in
the functional model). -/
def internalCurrentIndex (l : Log) : Nat :=
  currentIndex l

/-- Go `nextIndex()`: `currentIndex() + 1`. -/
def nextIndex (l : Log) : Nat :=
  currentIndex l + 1

/-- Go `isEmpty()`: no in-memory entries and no compaction baseline. -/
def isEmpty (l : Log) : Bool :=
  decide (l.entries = []) && decide (l.startIndex = 0)

/-- Go `currentTerm()`: term of the last in-memory entry, or `startTerm`. -/
def currentTerm (l : Log) : Nat :=
  match l.entries.getLast? with
  | none => l.startTerm
  | some e => e.Term

/-- Go `getEntry(index)`: `nil` when `index <= startIndex` or
`index > startIndex + len(entries)`; otherwise the source reads
`l.entries[index-1]` — an access that is out of range (Go panic) whenever
`startIndex > 0` pushes the window past the raw offset. -/
def getEntry (l : Log) (index : Nat) : EntryLookup :=
  if index ≤ l.startIndex ∨ index > l.startIndex + l.entries.length then
    .notFound
  else
    match l.entries[index - 1]? with
    | some e => .found e
    | none => .panicOOB

/-- Go `close()`: drop the file handle, reset `entries` and `results`; the other
fields are untouched. -/
def close (l : Log) : Log :=
  { l with fileOpen := false, entries := [], results := [] }

/-- Go `open(path)` after the replay decoding succeeded on the file's decodable
prefix `goodEntries`: each decoded entry is appended to `entries`, becomes the
new `commitIndex`, is applied through the callback and its result appended to
`results`; afterwards the file (holding exactly the good prefix, any trailing
garbage truncated away) is reopened for append. -/
def openLog (apply : Nat → Nat × Option Nat) (l : Log) (goodEntries : List LogEntry) : Log :=
  let replayed := goodEntries.foldl
    (fun acc e =>
      { acc with
        entries := acc.entries ++ [e],
        commitIndex := e.Index,
        results := acc.results ++ [some ⟨(apply e.Command).1, (apply e.Command).2⟩] })
    l
  { replayed with fileOpen := true, fileData := goodEntries }

/-- Go `updateCommitIndex(index)`: unconditional assignment of the commit index. -/
def updateCommitIndex (l : Log) (index : Nat) : Log :=
  { l with commitIndex := index }

/-- Go slice element assignment `xs[i] = v`: panics (`none`) when `i` is out of
range, otherwise the updated slice. -/
def setSlot {α : Type} (xs : List α) (i : Nat) (v : α) : Option (List α) :=
  if i < xs.length then some (xs.set i v) else none

/-- The body of the `for i := l.commitIndex + 1; i <= index; i++` loop of
`setCommitIndex`, made structural on a fuel argument (the caller passes exactly
`index - commitIndex`).  Besides the updated log it returns the trace of
commands passed to the apply callback, in call order, and the error (if any)
that ended the loop.  Each iteration: read `l.entries[i-1-startIndex]` (panic
when out of range, and `i <= startIndex` models the `uint64` underflow panic),
encode the entry to the file (failure returns the error before the commit index
moves), advance `commitIndex` to the entry's `Index`, apply the command and
store the result into `results[i-1-startIndex]`. -/
def commitLoop (apply : Nat → Nat × Option Nat) (encodeOk : LogEntry → Bool) :
    Nat → Log → Nat → Nat → Log × List Nat × Option LogError
  | 0, l, _, _ => (l, [], none)
  | fuel + 1, l, i, index =>
    if i > index then (l, [], none)
    else if i ≤ l.startIndex then (l, [], some .panicOOB)
    else
      match l.entries[i - 1 - l.startIndex]? with
      | none => (l, [], some .panicOOB)
      | some entry =>
        if encodeOk entry = false then (l, [], some .encodeFail)
        else
          let l1 := { l with fileData := l.fileData ++ [entry], commitIndex := entry.Index }
          let r := apply entry.Command
          match setSlot l1.results (i - 1 - l.startIndex) (some ⟨r.1, r.2⟩) with
          | none => (l1, [entry.Command], some .panicOOB)
          | some rs =>
            let out := commitLoop apply encodeOk fuel { l1 with results := rs } (i + 1) index
            (out.1, entry.Command :: out.2.1, out.2.2)

/-- Go `setCommitIndex(index)`: error when `index` is beyond the in-memory window;
silent no-op when `index < commitIndex`; otherwise run the commit loop over
`(commitIndex, index]`. -/
def setCommitIndex (apply : Nat → Nat × Option Nat) (encodeOk : LogEntry → Bool)
    (l : Log) (index : Nat) : Log × List Nat × Option LogError :=
  if index > l.startIndex + l.entries.length then (l, [], some .commitOutOfRange)
  else if index < l.commitIndex then (l, [], none)
  else commitLoop apply encodeOk (index - l.commitIndex) l (l.commitIndex + 1) index

/-- Go `truncate(index, term)`: refuse to touch committed entries or to truncate
past the end; clear everything when `index == startIndex`; otherwise check the
term of the entry at `index` (the source reads `l.entries[index-startIndex-1]`,
which panics on `uint64` underflow when `index < startIndex`) and drop every
entry after `index` on a match.  `results` is never modified. -/
def truncate (l : Log) (index term : Nat) : Log × Option LogError :=
  if index < l.commitIndex then (l, some .alreadyCommitted)
  else if index > l.startIndex + l.entries.length then (l, some .indexNoExist)
  else if index = l.startIndex then ({ l with entries := [] }, none)
  else if index < l.startIndex then (l, some .panicOOB)
  else
    match l.entries[index - l.startIndex - 1]? with
    | none => (l, some .panicOOB)
    | some entry =>
      if 0 < l.entries.length ∧ entry.Term ≠ term then (l, some .termMismatch)
      else if index < l.startIndex + l.entries.length then
        ({ l with entries := l.entries.take (index - l.startIndex) }, none)
      else (l, none)

/-- Go `appendEntry(entry)`: requires the file to be open; enforces term/index
monotonicity against the last in-memory entry; on success appends the entry and
a `nil` result placeholder. -/
def appendEntry (l : Log) (entry : LogEntry) : Log × Option LogError :=
  if l.fileOpen = false then (l, some .notOpen)
  else
    match l.entries.getLast? with
    | some lastEntry =>
      if entry.Term < lastEntry.Term then (l, some .earlierTerm)
      else if entry.Term = lastEntry.Term ∧ entry.Index ≤ lastEntry.Index then
        (l, some .earlierIndex)
      else
        ({ l with entries := l.entries ++ [entry], results := l.results ++ [none] }, none)
    | none =>
      ({ l with entries := l.entries ++ [entry], results := l.results ++ [none] }, none)

/-- Go `appendEntries(entries)`: append each entry in order, stopping at the first
failure. -/
def appendEntries (l : Log) : List LogEntry → Log × Option LogError
  | [] => (l, none)
  | e :: rest =>
    match appendEntry l e with
    | (l1, none) => appendEntries l1 rest
    | (l1, some err) => (l1, some err)

/-- Go `compact(index, term)`: retain the entries strictly after `index` (none at
all when `index >= internalCurrentIndex()` — the slice `l.entries[index-startIndex:]`
panics on `uint64` underflow when `index < startIndex`), encode them into a new
file that replaces the old one, and set the in-memory window and the
`startIndex`/`startTerm` baseline.  `results` is never modified. -/
def compact (encodeOk : LogEntry → Bool) (l : Log) (index term : Nat) :
    Log × Option LogError :=
  if index < internalCurrentIndex l ∧ index < l.startIndex then (l, some .panicOOB)
  else
    let retained :=
      if index ≥ internalCurrentIndex l then ([] : List LogEntry)
      else l.entries.drop (index - l.startIndex)
    if retained.all encodeOk = false then (l, some .encodeFail)
    else
      ({ l with fileOpen := true, fileData := retained, entries := retained,
                startIndex := index, startTerm := term }, none)

/-- The arithmetic window invariant stated by the spec:
`startIndex ≤ commitIndex ≤ startIndex + len(entries)`. -/
def Inv (l : Log) : Prop :=
  l.startIndex ≤ l.commitIndex ∧ l.commitIndex ≤ l.startIndex + l.entries.length

instance (l : Log) : Decidable (Inv l) := by
  unfold Inv; infer_instance

/-- The in-memory entries are contiguously indexed from `startIndex + 1`,
as `createEntry`/`nextIndex` produce them in normal operation. -/
def Contiguous (l : Log) : Prop :=
  ∀ k, (h : k < l.entries.length) → (l.entries.get ⟨k, h⟩).Index = l.startIndex + k + 1

instance (l : Log) : Decidable (Contiguous l) := by
  unfold Contiguous
  exact Nat.decidableBallLT _ _

/-- Go `results` is a parallel sequence to `entries`. -/
def ParallelLen (l : Log) : Prop :=
  l.results.length = l.entries.length

instance (l : Log) : Decidable (ParallelLen l) := by
  unfold ParallelLen; infer_instance

/-- A compacted log (baseline `startIndex = 1`, one retained entry of index 2)
used to exhibit the `getEntry` offset slip. -/
def compactedLog : Log :=
  { entries := [⟨2, 1, 10⟩], results := [none], commitIndex := 1, startIndex := 1,
    startTerm := 1, fileOpen := true, fileData := [] }
/-- An uncompacted two-entry log about to be compacted at index 1. -/
def preCompactLog : Log :=
  { entries := [⟨1, 1, 10⟩, ⟨2, 1, 20⟩], results := [none, none], commitIndex := 2,
    startIndex := 0, startTerm := 0, fileOpen := true,
    fileData := [⟨1, 1, 10⟩, ⟨2, 1, 20⟩] }
/-- A two-entry log with nothing committed, used for the truncation
counterexample. -/
def parallelDemoLog : Log :=
  { entries := [⟨1, 1, 10⟩, ⟨2, 1, 20⟩], results := [none, none], commitIndex := 0,
    startIndex := 0, startTerm := 0, fileOpen := true, fileData := [] }
/-- A one-entry log (last entry index 5, term 2) for the append witnesses. -/
def appendDemoLog : Log :=
  { entries := [⟨5, 2, 0⟩], results := [none], commitIndex := 0, startIndex := 0,
    startTerm := 0, fileOpen := true, fileData := [] }
/-- A committed two-entry log for the truncation-error witness. -/
def truncDemoLog : Log :=
  { entries := [⟨1, 1, 5⟩, ⟨2, 2, 6⟩], results := [none, none], commitIndex := 2,
    startIndex := 0, startTerm := 0, fileOpen := true, fileData := [] }

lemma Contiguous.idx {l : Log} (hc : Contiguous l) {k : Nat} {e : LogEntry}
    (h : l.entries[k]? = some e) : e.Index = l.startIndex + k + 1 := by
  rcases List.getElem?_eq_some.mp h with ⟨hk, he⟩
  have := hc k hk
  rw [List.get_eq_getElem] at this
  rw [he] at this
  exact this


/-- C1: the claim says that for an index inside the window `getEntry` returns
the entry at offset `index - startIndex - 1`.  The source instead reads
`l.entries[index-1]`: on a compacted log with `startIndex = 1` and the single
entry of index 2, index 2 is inside the window and the claimed offset holds the
entry, yet `getEntry(2)` panics with an out-of-range slice access. -/
theorem getEntry_ignores_startIndex :
    getEntry compactedLog 2 = .panicOOB ∧
    compactedLog.startIndex < 2 ∧
    2 ≤ compactedLog.startIndex + compactedLog.entries.length ∧
    compactedLog.entries[2 - compactedLog.startIndex - 1]? = some ⟨2, 1, 10⟩ := by
  decide


/-- C2: after a successful `compact(1, 1)` on a two-entry log the entry of
index 2 is retained in memory, but `getEntry(2)` panics instead of returning
it, because `getEntry` indexes `entries[index-1]` and ignores the new
`startIndex = 1` baseline. -/
theorem compact_then_getEntry_bug :
    (compact (fun _ => true) preCompactLog 1 1).2 = none ∧
    (compact (fun _ => true) preCompactLog 1 1).1.startIndex = 1 ∧
    (compact (fun _ => true) preCompactLog 1 1).1.entries = [⟨2, 1, 20⟩] ∧
    getEntry (compact (fun _ => true) preCompactLog 1 1).1 2 = .panicOOB := by
  decide

/-- C4: when `i < commitIndex` (on a log whose commit index is inside the
window), `setCommitIndex(i)` returns no error, the log is unchanged, nothing is
encoded to the file, and the apply callback is never invoked (empty trace). -/
theorem setCommitIndex_noop_below (apply : Nat → Nat × Option Nat)
    (encodeOk : LogEntry → Bool) (l : Log) (i : Nat)
    (hinv : l.commitIndex ≤ l.startIndex + l.entries.length)
    (h : i < l.commitIndex) :
    setCommitIndex apply encodeOk l i = (l, [], none) := by
  unfold setCommitIndex
  rw [if_neg (by omega), if_pos h]

/-- Witness for C4 at a concrete compacted log. -/
theorem setCommitIndex_noop_below_witness :
    setCommitIndex (fun c => (c + 100, none)) (fun _ => true) compactedLog 0 =
      (compactedLog, [], none) :=
  setCommitIndex_noop_below (fun c => (c + 100, none)) (fun _ => true) compactedLog 0
    (by decide) (by decide)


/-- C5 counterexample: a successful `truncate(1, 1)` on a two-entry log drops
the second entry but leaves both result slots in place, so
`len(results) ≠ len(entries)` afterwards — `truncate` does not maintain the
parallel-array invariant. -/
theorem truncate_breaks_parallel :
    (truncate parallelDemoLog 1 1).2 = none ∧
    (truncate parallelDemoLog 1 1).1.entries.length = 1 ∧
    (truncate parallelDemoLog 1 1).1.results.length = 2 := by
  decide

/-- C6 counterexample: `updateCommitIndex` assigns the commit index without any
range check, so it moves a fresh (invariant-satisfying) log to a state with
`commitIndex = 5 > startIndex + len(entries) = 0`. -/
theorem updateCommitIndex_breaks_inv :
    Inv newLog ∧ ¬ Inv (updateCommitIndex newLog 5) := by
  decide

/-- C10: `close()` empties `entries` and `results` and drops the file handle,
while `commitIndex`, `startIndex` and `startTerm` survive: `CommitIndex()`
still reports the old commit index, `currentIndex()` falls back to
`startIndex`, and `isEmpty()` stays false whenever `startIndex > 0`. -/
theorem close_frame (l : Log) :
    CommitIndex (close l) = l.commitIndex ∧
    currentIndex (close l) = l.startIndex ∧
    (0 < l.startIndex → isEmpty (close l) = false) ∧
    (close l).entries = [] ∧
    (close l).results = [] ∧
    (close l).fileOpen = false ∧
    (close l).startIndex = l.startIndex ∧
    (close l).startTerm = l.startTerm := by
  refine ⟨rfl, rfl, ?_, rfl, rfl, rfl, rfl, rfl⟩
  intro h
  simp only [isEmpty, close, Bool.and_eq_false_iff]
  right
  simp
  omega

/-- Witness for C10 on a log with a nonzero baseline. -/
theorem close_frame_witness :
    isEmpty (close compactedLog) = false ∧
    CommitIndex (close compactedLog) = 1 ∧
    currentIndex (close compactedLog) = 1 :=
  ⟨(close_frame compactedLog).2.2.1 (by decide),
   (close_frame compactedLog).1,
   (close_frame compactedLog).2.1⟩

lemma appendEntry_eq_of_last (l : Log) (lastE : LogEntry) (hopen : l.fileOpen = true)
    (hlast : l.entries.getLast? = some lastE) (e : LogEntry) :
    appendEntry l e =
      if e.Term < lastE.Term then (l, some .earlierTerm)
      else if e.Term = lastE.Term ∧ e.Index ≤ lastE.Index then (l, some .earlierIndex)
      else ({ l with entries := l.entries ++ [e], results := l.results ++ [none] }, none) := by
  simp [appendEntry, hopen, hlast]

/-- C7: against a last in-memory entry `lastE` on an open log, `appendEntry`
rejects a lower term, rejects an equal term with a non-increasing index (both
leaving the log unchanged), and accepts an equal term with a larger index or a
strictly larger term, appending the entry and a `nil` result placeholder. -/
theorem appendEntry_monotonicity (l : Log) (lastE e : LogEntry)
    (hopen : l.fileOpen = true)
    (hlast : l.entries.getLast? = some lastE) :
    (e.Term < lastE.Term → appendEntry l e = (l, some .earlierTerm)) ∧
    (e.Term = lastE.Term → e.Index ≤ lastE.Index →
      appendEntry l e = (l, some .earlierIndex)) ∧
    (e.Term = lastE.Term → lastE.Index < e.Index →
      appendEntry l e =
        ({ l with entries := l.entries ++ [e], results := l.results ++ [none] }, none)) ∧
    (lastE.Term < e.Term →
      appendEntry l e =
        ({ l with entries := l.entries ++ [e], results := l.results ++ [none] }, none)) := by
  refine ⟨?_, ?_, ?_, ?_⟩
  · intro h
    rw [appendEntry_eq_of_last l lastE hopen hlast e, if_pos h]
  · intro h1 h2
    rw [appendEntry_eq_of_last l lastE hopen hlast e, if_neg (by omega), if_pos ⟨h1, h2⟩]
  · intro h1 h2
    rw [appendEntry_eq_of_last l lastE hopen hlast e, if_neg (by omega),
      if_neg (by rintro ⟨h3, h4⟩; omega)]
  · intro h
    rw [appendEntry_eq_of_last l lastE hopen hlast e, if_neg (by omega),
      if_neg (by rintro ⟨h3, h4⟩; omega)]


/-- Witness for C7: a lower-term entry is rejected. -/
theorem appendEntry_monotonicity_witness :
    appendEntry appendDemoLog ⟨6, 1, 7⟩ = (appendDemoLog, some .earlierTerm) :=
  (appendEntry_monotonicity appendDemoLog ⟨5, 2, 0⟩ ⟨6, 1, 7⟩ (by decide) (by decide)).1
    (by decide)

/-- C9: any entry whose term is strictly greater than the last entry's term is
accepted by `appendEntry`, whatever its index — the index comparison only runs
when the terms are equal. -/
theorem appendEntry_higher_term_accepts (l : Log) (lastE e : LogEntry)
    (hopen : l.fileOpen = true)
    (hlast : l.entries.getLast? = some lastE)
    (hterm : lastE.Term < e.Term) :
    appendEntry l e =
      ({ l with entries := l.entries ++ [e], results := l.results ++ [none] }, none) := by
  rw [appendEntry_eq_of_last l lastE hopen hlast e, if_neg (by omega),
    if_neg (by rintro ⟨h3, h4⟩; omega)]

/-- Witness for C9: an entry with a higher term but a smaller index (1 ≤ 5) is
appended successfully. -/
theorem appendEntry_higher_term_accepts_witness :
    appendEntry appendDemoLog ⟨1, 3, 7⟩ =
      ({ entries := [⟨5, 2, 0⟩, ⟨1, 3, 7⟩], results := [none, none], commitIndex := 0,
         startIndex := 0, startTerm := 0, fileOpen := true, fileData := [] }, none) := by
  rw [appendEntry_higher_term_accepts appendDemoLog ⟨5, 2, 0⟩ ⟨1, 3, 7⟩ (by decide) (by decide)
    (by decide)]
  decide

/-- C8: `truncate(i, t)` errors out and leaves the log untouched when
`i < commitIndex`, and likewise when `i` lies inside the window
(`startIndex < i ≤ startIndex + len(entries)`) but the entry stored at `i` has
a term different from `t`. -/
theorem truncate_error_frame (l : Log) (i t : Nat) :
    (i < l.commitIndex → truncate l i t = (l, some .alreadyCommitted)) ∧
    (l.startIndex < i → i ≤ l.startIndex + l.entries.length →
      ∀ e, l.entries[i - l.startIndex - 1]? = some e → e.Term ≠ t →
        (truncate l i t).1 = l ∧ (truncate l i t).2 ≠ none) := by
  constructor
  · intro h
    unfold truncate
    rw [if_pos h]
  · intro h1 h2 e he hterm
    have hlen : i - l.startIndex - 1 < l.entries.length := (List.getElem?_eq_some.mp he).1
    by_cases hc : i < l.commitIndex
    · unfold truncate
      rw [if_pos hc]
      exact ⟨rfl, by simp⟩
    · have hpos : 0 < l.entries.length := by omega
      unfold truncate
      rw [if_neg hc, if_neg (by omega), if_neg (by omega), if_neg (by omega), he]
      simp [hterm, hpos]


/-- Witness for C8: truncating below the commit index errors, and a term
mismatch at index 2 errors without changing the log. -/
theorem truncate_error_frame_witness :
    truncate truncDemoLog 1 9 = (truncDemoLog, some .alreadyCommitted) ∧
    (truncate truncDemoLog 2 5).1 = truncDemoLog ∧
    (truncate truncDemoLog 2 5).2 ≠ none :=
  ⟨(truncate_error_frame truncDemoLog 1 9).1 (by decide),
   (truncate_error_frame truncDemoLog 2 5).2 (by decide) (by decide) ⟨2, 2, 6⟩
     (by decide) (by decide)⟩

lemma appendEntry_fst (l : Log) (e : LogEntry) :
    (appendEntry l e).1 = l ∨
    (appendEntry l e).1 =
      { l with entries := l.entries ++ [e], results := l.results ++ [none] } := by
  unfold appendEntry
  split
  · exact Or.inl rfl
  split
  · split
    · exact Or.inl rfl
    split
    · exact Or.inl rfl
    · exact Or.inr rfl
  · exact Or.inr rfl

lemma appendEntry_parallel (l : Log) (e : LogEntry) (h : ParallelLen l) :
    ParallelLen (appendEntry l e).1 := by
  rcases appendEntry_fst l e with h1 | h1 <;> rw [h1]
  · exact h
  · unfold ParallelLen at h ⊢
    dsimp only
    simp [h]

lemma appendEntry_inv (l : Log) (e : LogEntry) (h : Inv l) :
    Inv (appendEntry l e).1 := by
  rcases appendEntry_fst l e with h1 | h1 <;> rw [h1]
  · exact h
  · unfold Inv at h ⊢
    dsimp only
    simp only [List.length_append, List.length_cons, List.length_nil]
    omega

lemma appendEntries_pres (P : Log → Prop)
    (hP : ∀ (l : Log) (e : LogEntry), P l → P (appendEntry l e).1) :
    ∀ (es : List LogEntry) (l : Log), P l → P (appendEntries l es).1 := by
  intro es
  induction es with
  | nil =>
    intro l h
    exact h
  | cons e rest ih =>
    intro l h
    simp only [appendEntries]
    cases hae : appendEntry l e with
    | mk l1 err =>
      have hl1 : P l1 := by
        have := hP l e h
        rw [hae] at this
        exact this
      cases err with
      | none =>
        exact ih l1 hl1
      | some er =>
        exact hl1

lemma commitLoop_frame (apply : Nat → Nat × Option Nat) (encodeOk : LogEntry → Bool)
    (fuel : Nat) :
    ∀ (l : Log) (i index : Nat),
      (commitLoop apply encodeOk fuel l i index).1.entries = l.entries ∧
      (commitLoop apply encodeOk fuel l i index).1.startIndex = l.startIndex ∧
      (commitLoop apply encodeOk fuel l i index).1.startTerm = l.startTerm ∧
      (commitLoop apply encodeOk fuel l i index).1.fileOpen = l.fileOpen ∧
      (commitLoop apply encodeOk fuel l i index).1.results.length = l.results.length := by
  induction fuel with
  | zero =>
    intro l i index
    exact ⟨rfl, rfl, rfl, rfl, rfl⟩
  | succ fuel ih =>
    intro l i index
    simp only [commitLoop]
    split
    · exact ⟨rfl, rfl, rfl, rfl, rfl⟩
    split
    · exact ⟨rfl, rfl, rfl, rfl, rfl⟩
    split
    · exact ⟨rfl, rfl, rfl, rfl, rfl⟩
    rename_i entry he
    split
    · exact ⟨rfl, rfl, rfl, rfl, rfl⟩
    rename_i henc
    split
    · exact ⟨rfl, rfl, rfl, rfl, rfl⟩
    rename_i rs hrs
    have hlen : rs.length = l.results.length := by
      unfold setSlot at hrs
      split at hrs
      · cases hrs
        simp
      · cases hrs
    obtain ⟨h1, h2, h3, h4, h5⟩ := ih _ (i + 1) index
    refine ⟨h1, h2, h3, h4, ?_⟩
    rw [h5]
    exact hlen

lemma commitLoop_inv (apply : Nat → Nat × Option Nat) (encodeOk : LogEntry → Bool)
    (fuel : Nat) :
    ∀ (l : Log) (i index : Nat), Contiguous l → Inv l →
      index ≤ l.startIndex + l.entries.length →
      Inv (commitLoop apply encodeOk fuel l i index).1 := by
  induction fuel with
  | zero =>
    intro l i index _ hinv _
    exact hinv
  | succ fuel ih =>
    intro l i index hcont hinv hidx
    simp only [commitLoop]
    split
    · exact hinv
    split
    · exact hinv
    split
    · exact hinv
    rename_i entry he
    split
    · exact hinv
    rename_i henc
    have hp : i - 1 - l.startIndex < l.entries.length := (List.getElem?_eq_some.mp he).1
    have hidxE : entry.Index = l.startIndex + (i - 1 - l.startIndex) + 1 := hcont.idx he
    split
    · unfold Inv at hinv ⊢
      dsimp only
      omega
    rename_i rs hrs
    apply ih
    · intro k hk
      exact hcont k hk
    · unfold Inv at hinv ⊢
      dsimp only
      omega
    · dsimp only
      exact hidx

lemma internalCurrentIndex_eq (l : Log) (hc : Contiguous l) :
    internalCurrentIndex l = l.startIndex + l.entries.length := by
  unfold internalCurrentIndex currentIndex
  cases hl : l.entries.getLast? with
  | none =>
    have : l.entries = [] := List.getLast?_eq_none_iff.mp hl
    simp [this]
  | some e =>
    have hne : l.entries ≠ [] := by
      intro h
      rw [h] at hl
      simp at hl
    have hlen : 0 < l.entries.length := List.length_pos.mpr hne
    rw [List.getLast?_eq_getElem?] at hl
    have := hc.idx hl
    dsimp only
    omega

lemma truncate_inv (l : Log) (i t : Nat) (hinv : Inv l) : Inv (truncate l i t).1 := by
  unfold truncate
  split
  · exact hinv
  rename_i hc
  split
  · exact hinv
  rename_i hend
  split
  · rename_i his
    unfold Inv at hinv ⊢
    dsimp only
    simp only [List.length_nil]
    omega
  rename_i his
  split
  · exact hinv
  rename_i hlt
  split
  · exact hinv
  rename_i entry he
  split
  · exact hinv
  split
  · unfold Inv at hinv ⊢
    dsimp only
    rw [List.length_take]
    omega
  · exact hinv

lemma compact_inv (encodeOk : LogEntry → Bool) (l : Log) (i t : Nat)
    (hcont : Contiguous l) (hinv : Inv l)
    (hs : l.startIndex ≤ i) (hc : i ≤ l.commitIndex) :
    Inv (compact encodeOk l i t).1 := by
  have hcur := internalCurrentIndex_eq l hcont
  unfold compact
  split
  · exact hinv
  dsimp only
  by_cases hge : i ≥ internalCurrentIndex l
  · rw [if_pos hge]
    split
    · exact hinv
    · unfold Inv at hinv ⊢
      dsimp only
      simp only [List.length_nil]
      omega
  · rw [if_neg hge]
    split
    · exact hinv
    · unfold Inv at hinv ⊢
      dsimp only
      simp only [List.length_drop]
      omega

lemma truncate_results (l : Log) (i t : Nat) : (truncate l i t).1.results = l.results := by
  unfold truncate
  repeat' split
  all_goals rfl

lemma compact_results (encodeOk : LogEntry → Bool) (l : Log) (i t : Nat) :
    (compact encodeOk l i t).1.results = l.results := by
  unfold compact
  dsimp only
  repeat' split
  all_goals rfl

lemma openLog_parallel (apply : Nat → Nat × Option Nat) :
    ∀ (ge : List LogEntry) (l : Log), ParallelLen l → ParallelLen (openLog apply l ge) := by
  have hfold : ∀ (ge : List LogEntry) (l : Log), ParallelLen l →
      ParallelLen (ge.foldl (fun acc e =>
        { acc with
          entries := acc.entries ++ [e],
          commitIndex := e.Index,
          results := acc.results ++ [some ⟨(apply e.Command).1, (apply e.Command).2⟩] }) l) := by
    intro ge
    induction ge with
    | nil =>
      intro l h
      exact h
    | cons e rest ih =>
      intro l h
      rw [List.foldl_cons]
      apply ih
      unfold ParallelLen at h ⊢
      dsimp only
      simp [h]
  intro ge l h
  unfold openLog
  have := hfold ge l h
  unfold ParallelLen at this ⊢
  dsimp only
  exact this

/-- C6 amended: `appendEntries` and `truncate` preserve the invariant
`startIndex ≤ commitIndex ≤ startIndex + len(entries)` unconditionally, and
`setCommitIndex` preserves it on contiguously indexed logs; but
`updateCommitIndex` preserves it only when its argument lies inside
`[startIndex, startIndex + len(entries)]`, and `compact` only when its index
lies inside `[startIndex, commitIndex]` (the counterexample shows the
unconditional claim fails at `updateCommitIndex`). -/
theorem inv_preservation_amended :
    (∀ (l : Log) (es : List LogEntry), Inv l → Inv (appendEntries l es).1) ∧
    (∀ (apply : Nat → Nat × Option Nat) (encodeOk : LogEntry → Bool) (l : Log) (i : Nat),
      Contiguous l → Inv l → Inv (setCommitIndex apply encodeOk l i).1) ∧
    (∀ (l : Log) (i t : Nat), Inv l → Inv (truncate l i t).1) ∧
    (∀ (l : Log) (i : Nat), l.startIndex ≤ i → i ≤ l.startIndex + l.entries.length →
      Inv (updateCommitIndex l i)) ∧
    (∀ (encodeOk : LogEntry → Bool) (l : Log) (i t : Nat),
      Contiguous l → Inv l → l.startIndex ≤ i → i ≤ l.commitIndex →
      Inv (compact encodeOk l i t).1) := by
  refine ⟨?_, ?_, ?_, ?_, ?_⟩
  · intro l es hinv
    exact appendEntries_pres Inv appendEntry_inv es l hinv
  · intro apply encodeOk l i hcont hinv
    unfold setCommitIndex
    split
    · exact hinv
    split
    · exact hinv
    rename_i hgt hlt
    exact commitLoop_inv apply encodeOk (i - l.commitIndex) l (l.commitIndex + 1) i
      hcont hinv (by omega)
  · intro l i t hinv
    exact truncate_inv l i t hinv
  · intro l i h1 h2
    exact ⟨h1, h2⟩
  · intro encodeOk l i t hcont hinv hs hc
    exact compact_inv encodeOk l i t hcont hinv hs hc

/-- Witness for the amended C6 at concrete inputs. -/
theorem inv_preservation_amended_witness :
    Inv (truncate truncDemoLog 2 2).1 ∧ Inv (updateCommitIndex newLog 0) :=
  ⟨inv_preservation_amended.2.2.1 truncDemoLog 2 2 (by decide),
   inv_preservation_amended.2.2.2.1 newLog 0 (by decide) (by decide)⟩

/-- C5 amended: `appendEntry`/`appendEntries`, `setCommitIndex`, `open` and
`close` preserve `len(results) = len(entries)`, but `truncate` and `compact`
leave `results` untouched (so they break the parallel-array invariant whenever
they discard entries, as the counterexample shows). -/
theorem results_parallel_amended :
    (∀ (l : Log) (e : LogEntry), ParallelLen l → ParallelLen (appendEntry l e).1) ∧
    (∀ (l : Log) (es : List LogEntry), ParallelLen l → ParallelLen (appendEntries l es).1) ∧
    (∀ (apply : Nat → Nat × Option Nat) (encodeOk : LogEntry → Bool) (l : Log) (i : Nat),
      ParallelLen l → ParallelLen (setCommitIndex apply encodeOk l i).1) ∧
    (∀ (apply : Nat → Nat × Option Nat) (l : Log) (ge : List LogEntry),
      ParallelLen l → ParallelLen (openLog apply l ge)) ∧
    (∀ l : Log, ParallelLen (close l)) ∧
    (∀ (l : Log) (i t : Nat), (truncate l i t).1.results = l.results) ∧
    (∀ (encodeOk : LogEntry → Bool) (l : Log) (i t : Nat),
      (compact encodeOk l i t).1.results = l.results) := by
  refine ⟨appendEntry_parallel, ?_, ?_, ?_, ?_, truncate_results, compact_results⟩
  · intro l es h
    exact appendEntries_pres ParallelLen appendEntry_parallel es l h
  · intro apply encodeOk l i h
    unfold setCommitIndex
    split
    · exact h
    split
    · exact h
    obtain ⟨he, _, _, _, hr⟩ :=
      commitLoop_frame apply encodeOk (i - l.commitIndex) l (l.commitIndex + 1) i
    unfold ParallelLen at h ⊢
    rw [he, hr]
    exact h
  · intro apply l ge h
    exact openLog_parallel apply ge l h
  · intro l
    rfl

/-- Witness for the amended C5 at concrete inputs. -/
theorem results_parallel_amended_witness :
    ParallelLen (appendEntry parallelDemoLog ⟨3, 2, 30⟩).1 ∧ ParallelLen (close newLog) :=
  ⟨results_parallel_amended.1 parallelDemoLog ⟨3, 2, 30⟩ (by decide),
   results_parallel_amended.2.2.2.2.1 newLog⟩

lemma commitLoop_ok (apply : Nat → Nat × Option Nat) (encodeOk : LogEntry → Bool)
    (fuel : Nat) :
    ∀ (l : Log) (i index : Nat),
      fuel + i = index + 1 →
      Contiguous l →
      l.results.length = l.entries.length →
      l.startIndex < i →
      index ≤ l.startIndex + l.entries.length →
      (∀ (k : Nat) (e : LogEntry), i - 1 - l.startIndex ≤ k → k < index - l.startIndex →
        l.entries[k]? = some e → encodeOk e = true) →
      (commitLoop apply encodeOk fuel l i index).2.2 = none ∧
      (commitLoop apply encodeOk fuel l i index).2.1 =
        ((l.entries.take (index - l.startIndex)).drop (i - 1 - l.startIndex)).map
          (fun e => e.Command) ∧
      (commitLoop apply encodeOk fuel l i index).1.fileData =
        l.fileData ++ (l.entries.take (index - l.startIndex)).drop (i - 1 - l.startIndex) ∧
      (commitLoop apply encodeOk fuel l i index).1.commitIndex =
        (if i ≤ index then index else l.commitIndex) ∧
      (∀ k : Nat, (k < i - 1 - l.startIndex ∨ index - l.startIndex ≤ k) →
        (commitLoop apply encodeOk fuel l i index).1.results[k]? = l.results[k]?) ∧
      (∀ (k : Nat) (e : LogEntry), i - 1 - l.startIndex ≤ k → k < index - l.startIndex →
        l.entries[k]? = some e →
        (commitLoop apply encodeOk fuel l i index).1.results[k]? =
          some (some ⟨(apply e.Command).1, (apply e.Command).2⟩)) := by
  induction fuel with
  | zero =>
    intro l i index hfuel hcont hpar hsi hidx hok
    have hdrop : (l.entries.take (index - l.startIndex)).drop (i - 1 - l.startIndex) = [] := by
      apply List.drop_eq_nil_of_le
      rw [List.length_take]
      omega
    refine ⟨rfl, ?_, ?_, ?_, ?_, ?_⟩
    · rw [hdrop]
      rfl
    · rw [hdrop, List.append_nil]
      rfl
    · rw [if_neg (by omega)]
      rfl
    · intro k hk
      rfl
    · intro k e hk1 hk2 he
      omega
  | succ fuel ih =>
    intro l i index hfuel hcont hpar hsi hidx hok
    have hii : i ≤ index := by omega
    have hp : i - 1 - l.startIndex < l.entries.length := by omega
    simp only [commitLoop]
    split
    · omega
    split
    · omega
    split
    · rename_i hnone
      simp [List.getElem?_eq_getElem hp] at hnone
    rename_i entry he
    split
    · rename_i hbad
      have htrue : encodeOk entry = true := hok _ entry (by omega) (by omega) he
      rw [htrue] at hbad
      simp at hbad
    rename_i hgood
    split
    · rename_i hrs
      unfold setSlot at hrs
      rw [if_pos (by omega)] at hrs
      cases hrs
    rename_i rs hrs
    unfold setSlot at hrs
    rw [if_pos (by omega)] at hrs
    injection hrs with hrs
    subst hrs
    have hidxE : entry.Index = l.startIndex + (i - 1 - l.startIndex) + 1 := hcont.idx he
    have hlt : i - 1 - l.startIndex < (l.entries.take (index - l.startIndex)).length := by
      rw [List.length_take]
      omega
    have hval : (l.entries.take (index - l.startIndex))[i - 1 - l.startIndex] = entry := by
      have hq := List.getElem?_eq_getElem hlt
      rw [List.getElem?_take_of_lt (by omega), he] at hq
      exact (Option.some.inj hq).symm
    have hps : i - 1 - l.startIndex + 1 = i - l.startIndex := by omega
    have hD : (l.entries.take (index - l.startIndex)).drop (i - 1 - l.startIndex) =
        entry :: (l.entries.take (index - l.startIndex)).drop (i - l.startIndex) := by
      rw [List.drop_eq_getElem_cons hlt, hval, hps]
    obtain ⟨e1, e2, e3, e4, e5, e6⟩ := ih
      { l with
        fileData := l.fileData ++ [entry],
        commitIndex := entry.Index,
        results := l.results.set (i - 1 - l.startIndex)
          (some ⟨(apply entry.Command).1, (apply entry.Command).2⟩) }
      (i + 1) index (by omega) (fun k hk => hcont k hk) (by simp [hpar])
      (by dsimp only; omega) (by dsimp only; omega)
      (by
        dsimp only
        intro k e hk1 hk2 hke
        exact hok k e (by omega) (by omega) hke)
    dsimp only at e2 e3 e4 e5 e6
    rw [Nat.add_sub_cancel] at e2 e3
    refine ⟨e1, ?_, ?_, ?_, ?_, ?_⟩
    · rw [hD, List.map_cons]
      exact congrArg (fun x => entry.Command :: x) e2
    · rw [hD]
      exact e3.trans (by simp)
    · exact e4.trans (by split_ifs <;> omega)
    · intro k hk
      have h5 := e5 k (by omega)
      rw [h5, List.getElem?_set_ne (by omega)]
    · intro k e hk1 hk2 hke
      by_cases hkp : k = i - 1 - l.startIndex
      · subst hkp
        have heq : e = entry := by
          rw [he] at hke
          exact (Option.some.inj hke).symm
        subst heq
        have h5 := e5 (i - 1 - l.startIndex) (Or.inl (by omega))
        rw [h5, List.getElem?_set_self (by omega)]
      · exact e6 k e (by omega) hk2 hke

lemma commitLoop_fail (apply : Nat → Nat × Option Nat) (encodeOk : LogEntry → Bool)
    (fuel : Nat) :
    ∀ (l : Log) (i index j : Nat),
      fuel + i = index + 1 →
      Contiguous l →
      l.results.length = l.entries.length →
      l.startIndex < i →
      l.commitIndex + 1 = i →
      index ≤ l.startIndex + l.entries.length →
      i - 1 - l.startIndex ≤ j →
      j < index - l.startIndex →
      (∀ (k : Nat) (e : LogEntry), i - 1 - l.startIndex ≤ k → k < j →
        l.entries[k]? = some e → encodeOk e = true) →
      (∀ e : LogEntry, l.entries[j]? = some e → encodeOk e = false) →
      (commitLoop apply encodeOk fuel l i index).2.2 = some .encodeFail ∧
      (commitLoop apply encodeOk fuel l i index).1.commitIndex = l.startIndex + j ∧
      (commitLoop apply encodeOk fuel l i index).2.1 =
        ((l.entries.take j).drop (i - 1 - l.startIndex)).map (fun e => e.Command) ∧
      (commitLoop apply encodeOk fuel l i index).1.fileData =
        l.fileData ++ (l.entries.take j).drop (i - 1 - l.startIndex) ∧
      (∀ k : Nat, (k < i - 1 - l.startIndex ∨ j ≤ k) →
        (commitLoop apply encodeOk fuel l i index).1.results[k]? = l.results[k]?) ∧
      (∀ (k : Nat) (e : LogEntry), i - 1 - l.startIndex ≤ k → k < j →
        l.entries[k]? = some e →
        (commitLoop apply encodeOk fuel l i index).1.results[k]? =
          some (some ⟨(apply e.Command).1, (apply e.Command).2⟩)) := by
  induction fuel with
  | zero =>
    intro l i index j hfuel hcont hpar hsi hci hidx hj1 hj2 hok hfail
    omega
  | succ fuel ih =>
    intro l i index j hfuel hcont hpar hsi hci hidx hj1 hj2 hok hfail
    have hii : i ≤ index := by omega
    have hjlen : j < l.entries.length := by omega
    have hp : i - 1 - l.startIndex < l.entries.length := by omega
    simp only [commitLoop]
    split
    · omega
    split
    · omega
    split
    · rename_i hnone
      simp [List.getElem?_eq_getElem hp] at hnone
    rename_i entry he
    split
    · rename_i hbad
      have hj : j = i - 1 - l.startIndex := by
        by_contra hne
        have htrue : encodeOk entry = true := hok _ entry (by omega) (by omega) he
        rw [htrue] at hbad
        simp at hbad
      subst hj
      have hnil : (l.entries.take (i - 1 - l.startIndex)).drop (i - 1 - l.startIndex) = [] := by
        apply List.drop_eq_nil_of_le
        rw [List.length_take]
        omega
      refine ⟨rfl, ?_, ?_, ?_, ?_, ?_⟩
      · dsimp only
        omega
      · rw [hnil]
        rfl
      · rw [hnil, List.append_nil]
      · intro k hk
        rfl
      · intro k e hk1 hk2 hke
        omega
    rename_i hgood
    have hjp : j ≠ i - 1 - l.startIndex := by
      intro hj
      subst hj
      exact hgood (hfail entry he)
    split
    · rename_i hrs
      unfold setSlot at hrs
      rw [if_pos (by omega)] at hrs
      cases hrs
    rename_i rs hrs
    unfold setSlot at hrs
    rw [if_pos (by omega)] at hrs
    injection hrs with hrs
    subst hrs
    have hidxE : entry.Index = l.startIndex + (i - 1 - l.startIndex) + 1 := hcont.idx he
    have hlt : i - 1 - l.startIndex < (l.entries.take j).length := by
      rw [List.length_take]
      omega
    have hval : (l.entries.take j)[i - 1 - l.startIndex] = entry := by
      have hq := List.getElem?_eq_getElem hlt
      rw [List.getElem?_take_of_lt (by omega), he] at hq
      exact (Option.some.inj hq).symm
    have hps : i - 1 - l.startIndex + 1 = i - l.startIndex := by omega
    have hD : (l.entries.take j).drop (i - 1 - l.startIndex) =
        entry :: (l.entries.take j).drop (i - l.startIndex) := by
      rw [List.drop_eq_getElem_cons hlt, hval, hps]
    obtain ⟨e1, e2, e3, e4, e5, e6⟩ := ih
      { l with
        fileData := l.fileData ++ [entry],
        commitIndex := entry.Index,
        results := l.results.set (i - 1 - l.startIndex)
          (some ⟨(apply entry.Command).1, (apply entry.Command).2⟩) }
      (i + 1) index j (by omega) (fun k hk => hcont k hk) (by simp [hpar])
      (by dsimp only; omega) (by dsimp only; omega) (by dsimp only; omega)
      (by dsimp only; omega) (by dsimp only; omega)
      (by
        dsimp only
        intro k e hk1 hk2 hke
        exact hok k e (by omega) hk2 hke)
      (fun e hke => hfail e hke)
    dsimp only at e2 e3 e4 e5 e6
    rw [Nat.add_sub_cancel] at e3 e4
    refine ⟨e1, e2, ?_, ?_, ?_, ?_⟩
    · rw [hD, List.map_cons]
      exact congrArg (fun x => entry.Command :: x) e3
    · rw [hD]
      exact e4.trans (by simp)
    · intro k hk
      have h5 := e5 k (by omega)
      rw [h5, List.getElem?_set_ne (by omega)]
    · intro k e hk1 hk2 hke
      by_cases hkp : k = i - 1 - l.startIndex
      · subst hkp
        have heq : e = entry := by
          rw [he] at hke
          exact (Option.some.inj hke).symm
        subst heq
        have h5 := e5 (i - 1 - l.startIndex) (Or.inl (by omega))
        rw [h5, List.getElem?_set_self (by omega)]
      · exact e6 k e (by omega) hk2 hke

/-- C3: on a well-formed log (contiguous indices, parallel results,
`startIndex ≤ commitIndex`), `setCommitIndex(index)` for
`commitIndex < index ≤ startIndex + len(entries)` processes the entries at
offsets `commitIndex-startIndex .. index-startIndex-1` (absolute indices
`commitIndex+1 .. index`) in ascending order.  When every processed entry
encodes successfully: no error, the apply callback receives exactly the
commands of those entries in order, each entry is appended to the file, its
result stored in its slot (other slots untouched), and `commitIndex` ends at
`index`.  When the first encode failure occurs at offset `j`: the loop stops
with the error, exactly the entries before `j` were encoded, applied and
recorded, and `commitIndex` equals `startIndex + j` — the absolute index of
the last successfully encoded entry. -/
theorem setCommitIndex_commit_protocol (apply : Nat → Nat × Option Nat)
    (encodeOk : LogEntry → Bool) (l : Log) (index : Nat)
    (hcont : Contiguous l)
    (hpar : l.results.length = l.entries.length)
    (hsc : l.startIndex ≤ l.commitIndex)
    (hlo : l.commitIndex < index)
    (hhi : index ≤ l.startIndex + l.entries.length) :
    ((∀ (k : Nat) (e : LogEntry), l.commitIndex - l.startIndex ≤ k →
        k < index - l.startIndex → l.entries[k]? = some e → encodeOk e = true) →
      (setCommitIndex apply encodeOk l index).2.2 = none ∧
      (setCommitIndex apply encodeOk l index).2.1 =
        ((l.entries.take (index - l.startIndex)).drop (l.commitIndex - l.startIndex)).map
          (fun e => e.Command) ∧
      (setCommitIndex apply encodeOk l index).1.commitIndex = index ∧
      (setCommitIndex apply encodeOk l index).1.entries = l.entries ∧
      (setCommitIndex apply encodeOk l index).1.startIndex = l.startIndex ∧
      (setCommitIndex apply encodeOk l index).1.fileData =
        l.fileData ++
          (l.entries.take (index - l.startIndex)).drop (l.commitIndex - l.startIndex) ∧
      (∀ k : Nat, (k < l.commitIndex - l.startIndex ∨ index - l.startIndex ≤ k) →
        (setCommitIndex apply encodeOk l index).1.results[k]? = l.results[k]?) ∧
      (∀ (k : Nat) (e : LogEntry), l.commitIndex - l.startIndex ≤ k →
        k < index - l.startIndex → l.entries[k]? = some e →
        (setCommitIndex apply encodeOk l index).1.results[k]? =
          some (some ⟨(apply e.Command).1, (apply e.Command).2⟩))) ∧
    (∀ j : Nat, l.commitIndex - l.startIndex ≤ j → j < index - l.startIndex →
      (∀ (k : Nat) (e : LogEntry), l.commitIndex - l.startIndex ≤ k → k < j →
        l.entries[k]? = some e → encodeOk e = true) →
      (∀ e : LogEntry, l.entries[j]? = some e → encodeOk e = false) →
      (setCommitIndex apply encodeOk l index).2.2 = some .encodeFail ∧
      (setCommitIndex apply encodeOk l index).1.commitIndex = l.startIndex + j ∧
      (setCommitIndex apply encodeOk l index).2.1 =
        ((l.entries.take j).drop (l.commitIndex - l.startIndex)).map (fun e => e.Command) ∧
      (setCommitIndex apply encodeOk l index).1.fileData =
        l.fileData ++ (l.entries.take j).drop (l.commitIndex - l.startIndex) ∧
      (∀ k : Nat, (k < l.commitIndex - l.startIndex ∨ j ≤ k) →
        (setCommitIndex apply encodeOk l index).1.results[k]? = l.results[k]?) ∧
      (∀ (k : Nat) (e : LogEntry), l.commitIndex - l.startIndex ≤ k → k < j →
        l.entries[k]? = some e →
        (setCommitIndex apply encodeOk l index).1.results[k]? =
          some (some ⟨(apply e.Command).1, (apply e.Command).2⟩))) := by
  have hset : setCommitIndex apply encodeOk l index =
      commitLoop apply encodeOk (index - l.commitIndex) l (l.commitIndex + 1) index := by
    unfold setCommitIndex
    rw [if_neg (by omega), if_neg (by omega)]
  constructor
  · intro hok
    obtain ⟨f1, f2, f3, f4, f5⟩ :=
      commitLoop_frame apply encodeOk (index - l.commitIndex) l (l.commitIndex + 1) index
    obtain ⟨h1, h2, h3, h4, h5, h6⟩ :=
      commitLoop_ok apply encodeOk (index - l.commitIndex) l (l.commitIndex + 1) index
        (by omega) hcont hpar (by omega) hhi
        (fun k e hk1 hk2 hke => hok k e hk1 hk2 hke)
    rw [if_pos (by omega : l.commitIndex + 1 ≤ index)] at h4
    rw [hset]
    exact ⟨h1, h2, h4, f1, f2, h3, h5, h6⟩
  · intro j hj1 hj2 hok hfail
    obtain ⟨h1, h2, h3, h4, h5, h6⟩ :=
      commitLoop_fail apply encodeOk (index - l.commitIndex) l (l.commitIndex + 1) index j
        (by omega) hcont hpar (by omega) rfl hhi hj1 hj2
        (fun k e hk1 hk2 hke => hok k e hk1 hk2 hke) hfail
    rw [hset]
    exact ⟨h1, h2, h3, h4, h5, h6⟩

/-- A three-entry fully uncommitted log for the commit-protocol witness. -/
def commitDemoLog : Log :=
  { entries := [⟨1, 1, 10⟩, ⟨2, 1, 20⟩, ⟨3, 2, 30⟩], results := [none, none, none],
    commitIndex := 0, startIndex := 0, startTerm := 0, fileOpen := true, fileData := [] }

/-- Witness for C3: committing up to index 2 applies commands 10 and 20 in
order, records the first result, and leaves no error. -/
theorem setCommitIndex_commit_protocol_witness :
    (setCommitIndex (fun c => (c + 1, none)) (fun _ => true) commitDemoLog 2).2.2 = none ∧
    (setCommitIndex (fun c => (c + 1, none)) (fun _ => true) commitDemoLog 2).2.1 = [10, 20] ∧
    (setCommitIndex (fun c => (c + 1, none)) (fun _ => true) commitDemoLog 2).1.commitIndex = 2 ∧
    (setCommitIndex (fun c => (c + 1, none)) (fun _ => true) commitDemoLog 2).1.results[0]? =
      some (some ⟨11, none⟩) := by
  have h := (setCommitIndex_commit_protocol (fun c => (c + 1, none)) (fun _ => true)
      commitDemoLog 2 (by decide) (by decide) (by decide) (by decide) (by decide)).1
      (fun k e hk1 hk2 hke => rfl)
  refine ⟨h.1, ?_, h.2.2.1, ?_⟩
  · rw [h.2.1]
    rfl
  · exact h.2.2.2.2.2.2.2 0 ⟨1, 1, 10⟩ (by decide) (by decide) (by decide)

end Raft
